import Mathlib

set_option linter.unusedVariables false

/-!
A shallow embedding of the read-only web metadata storage
(`src/Disks/ObjectStorages/Web/MetadataStorageFromStaticFilesWebServer.cpp`).

The Index (`object_storage.files`, a `std::map<String, FileData>`) is embedded
as an association list whose keys are strictly ascending in path order.
Strings are modelled at the granularity of their character lists; UTF-8 byte
order coincides with code-point order, so C++ byte-wise comparison and prefix
tests agree with the character-level ones used here.  The HTTP fetcher and the
ambient query context are passed explicitly; a thrown `DB::Exception` (or
`std::out_of_range`) is an `Except.error`, and the mutable storage is threaded
through every operation.
-/

/-- Lexicographic comparison of character lists: the order used by
`std::map<String, FileData>` (`std::less<std::string>`, byte-wise). -/
def charsLt : List Char → List Char → Bool
  | _, [] => false
  | [], _ :: _ => true
  | a :: as, b :: bs => if a == b then charsLt as bs else decide (a.toNat < b.toNat)

/-- Path order on strings, as the C++ source compares `std::string` keys. -/
def strLt (a b : String) : Bool := charsLt a.data b.data

/-- The ClickHouse helper `startsWith(s, x)` (and `std::string::starts_with`):
`x` is a prefix of `s`. -/
def startsWith (s pre : String) : Bool := pre.data.isPrefixOf s.data

/-- The last path component (`std::filesystem::path::filename`): the maximal
suffix of the native string without a directory separator. -/
def fileName (s : String) : String :=
  ⟨(s.data.reverse.takeWhile (fun c => c != '/')).reverse⟩

/-- The extension characters (leading dot included) of a filename, following
`std::filesystem::path::extension`: empty for `.`, `..`, for a dot-less
filename and for a dot only at position 0. -/
def extChars (f : List Char) : List Char :=
  if f = ['.'] ∨ f = ['.', '.'] then []
  else
    let rf := f.reverse
    let afterDot := rf.takeWhile (fun c => c != '.')
    if afterDot.length = rf.length then []
    else if afterDot.length + 1 = rf.length then []
    else (rf.take (afterDot.length + 1)).reverse

/-- `std::filesystem::path::extension` on the native string. -/
def extension (s : String) : String := ⟨extChars (fileName s).data⟩

/-- `std::filesystem::path::stem`: the filename with the extension removed. -/
def stem (s : String) : String :=
  let f := (fileName s).data
  ⟨f.take (f.length - (extChars f).length)⟩

/-- `std::filesystem::path::has_extension`. -/
def hasExtension (s : String) : Bool := extension s != ""

/-- `std::filesystem::path::parent_path` on character lists: drop the filename,
then the trailing separators, keeping a bare root directory. -/
def parentChars (cs : List Char) : List Char :=
  let rest := cs.reverse.dropWhile (fun c => c != '/')
  let stripped := rest.dropWhile (fun c => c == '/')
  if stripped.isEmpty then (if rest.isEmpty then [] else ['/'])
  else stripped.reverse

/-- `std::filesystem::path::parent_path` on the native string. -/
def parentPath (s : String) : String := ⟨parentChars s.data⟩

/-- `std::filesystem::path::operator/` on POSIX native strings: an absolute
right-hand side replaces the left, otherwise a single separator is inserted
when the left side does not already end with one. -/
def pathAppend (a b : String) : String :=
  if b.data.head? = some '/' then b
  else if a = "" then b
  else if a.data.getLast? = some '/' then a ++ b
  else a ++ "/" ++ b

/-- `WebObjectStorage::FileType`. -/
inductive FileType
  | File
  | Directory
deriving DecidableEq

/-- One Index entry: the type and size a fetched listing records for a path. -/
structure FileEntry where
  type : FileType
  size : Nat
deriving DecidableEq

/-- The Index: `object_storage.files`, path → entry. -/
abbrev Index := List (String × FileEntry)

/-- The `std::map` ordering invariant: keys strictly ascending in path order. -/
abbrev IndexSorted (files : Index) : Prop :=
  files.Pairwise (fun a b => strLt a.1 b.1 = true)

/-- `WebObjectStorage`: the remote base url and the Index. -/
structure Storage where
  url : String
  files : Index
deriving DecidableEq

/-- The ambient thread state consulted by the escalation policy:
`CurrentThread::isInitialized()` and `CurrentThread::get().getQueryContext()`. -/
structure ExecContext where
  threadInitialized : Bool
  hasQueryContext : Bool
deriving DecidableEq

/-- The execution is attached to a live query context. -/
def liveQuery (ctx : ExecContext) : Bool := ctx.threadInitialized && ctx.hasQueryContext

/-- Error kinds that escape the embedded operations. -/
inductive ErrCode
  | NOT_IMPLEMENTED
  | FILE_DOESNT_EXIST
  | NETWORK_ERROR
  | NOT_ALLOWED
  | STD_OUT_OF_RANGE
deriving DecidableEq

/-- A thrown exception: error kind plus message. -/
structure Err where
  code : ErrCode
  message : String
deriving DecidableEq

/-- Modelled from the spec: `WebObjectStorage::initialize(url)` is outside the
repository sources; per the spec it fetches the listing rooted at the url and
merges the entries into the Index, or fails (throws) with a message.  The
outcome is kept abstract as a function of the requested url. -/
def Fetcher : Type := String → Except String Index

/-- Modelled from the spec: insertion of one fetched entry into the ordered
Index.  A key already present is never overwritten (Index entries are "never
deleted, never mutated once inserted"). -/
def insertEntry : Index → String → FileEntry → Index
  | [], k, v => [(k, v)]
  | (k', v') :: rest, k, v =>
    if strLt k k' then (k, v) :: (k', v') :: rest
    else if strLt k' k then (k', v') :: insertEntry rest k v
    else (k', v') :: rest

/-- Modelled from the spec: merging a fetched listing into the Index. -/
def mergeEntries (files : Index) (entries : Index) : Index :=
  entries.foldl (fun acc e => insertEntry acc e.1 e.2) files

/-- `files.contains(path)`, equivalently `files.find(path) != files.end()`. -/
def containsKey (files : Index) (path : String) : Bool :=
  (List.lookup path files).isSome

/-- `files.at(path)`: throws `std::out_of_range` when the key is absent. -/
def mapAt (files : Index) (path : String) : Except Err FileEntry :=
  match List.lookup path files with
  | some e => Except.ok e
  | none => Except.error ⟨ErrCode.STD_OUT_OF_RANGE, "map::at"⟩

/-- `MetadataStorageFromStaticFilesWebServer::initializeIfNeeded`: succeed at
once when the path is an Index key; otherwise invoke the fetcher and, on
failure, either throw `NETWORK_ERROR` or swallow the error (logging only) and
report failure, as decided by `throw_on_error` and the ambient context. -/
def initializeIfNeeded (st : Storage) (fetch : Fetcher) (ctx : ExecContext)
    (path : String) (throw_on_error : Option Bool) : Except Err (Storage × Bool) :=
  if containsKey st.files path then Except.ok (st, true)
  else
    match fetch (pathAppend st.url path) with
    | Except.ok entries => Except.ok (⟨st.url, mergeEntries st.files entries⟩, true)
    | Except.error msg =>
      let can_throw := throw_on_error.getD (liveQuery ctx)
      if can_throw then
        Except.error ⟨ErrCode.NETWORK_ERROR, "Cannot load disk metadata. Error: " ++ msg⟩
      else Except.ok (st, false)

/-- The Index part of `exists` after the lazy initialization: empty check,
direct key check, then `std::lower_bound` (on the sorted Index the suffix left
by dropping all keys below `path`) plus the single neighbour peek. -/
def existsLookup (files : Index) (path : String) : Bool :=
  if files.isEmpty then false
  else if containsKey files path then true
  else
    match (files.dropWhile (fun e => strLt e.1 path)).head? with
    | none => false
    | some e =>
      startsWith e.1 path ||
        match (files.takeWhile (fun e => strLt e.1 path)).getLast? with
        | some e' => startsWith e'.1 path
        | none => false

/-- The same lookup as the specification words it: after the empty and direct
key checks, `it := lower_bound(Index, p)`, and the result is true iff `it`
points to an entry whose key starts with `p`, or `it` has a predecessor whose
key starts with `p`. -/
def existsLookupSpec (files : Index) (path : String) : Bool :=
  if files.isEmpty then false
  else if containsKey files path then true
  else
    (match (files.dropWhile (fun e => strLt e.1 path)).head? with
      | some e => startsWith e.1 path
      | none => false) ||
    (match (files.takeWhile (fun e => strLt e.1 path)).getLast? with
      | some e => startsWith e.1 path
      | none => false)

/-- `MetadataStorageFromStaticFilesWebServer::exists`. -/
def existsOp (st : Storage) (fetch : Fetcher) (ctx : ExecContext) (path : String) :
    Except Err (Storage × Bool) :=
  let q := if hasExtension path then parentPath path else path
  match initializeIfNeeded st fetch ctx q (some false) with
  | Except.error e => Except.error e
  | Except.ok (st1, _) => Except.ok (st1, existsLookup st1.files path)

/-- `exists` with its Index lookup replaced by the specification's wording. -/
def existsSpecOp (st : Storage) (fetch : Fetcher) (ctx : ExecContext) (path : String) :
    Except Err (Storage × Bool) :=
  let q := if hasExtension path then parentPath path else path
  match initializeIfNeeded st fetch ctx q (some false) with
  | Except.error e => Except.error e
  | Except.ok (st1, _) => Except.ok (st1, existsLookupSpec st1.files path)

/-- `MetadataStorageFromStaticFilesWebServer::assertExists` (release build
message). -/
def assertExistsOp (st : Storage) (fetch : Fetcher) (ctx : ExecContext) (path : String) :
    Except Err Storage :=
  match initializeIfNeeded st fetch ctx path none with
  | Except.error e => Except.error e
  | Except.ok (st1, _) =>
    match existsOp st1 fetch ctx path with
    | Except.error e => Except.error e
    | Except.ok (st2, b) =>
      if b then Except.ok st2
      else Except.error ⟨ErrCode.FILE_DOESNT_EXIST, "There is no path " ++ path⟩

/-- `MetadataStorageFromStaticFilesWebServer::isFile`. -/
def isFileOp (st : Storage) (fetch : Fetcher) (ctx : ExecContext) (path : String) :
    Except Err (Storage × Bool) :=
  match assertExistsOp st fetch ctx path with
  | Except.error e => Except.error e
  | Except.ok st1 =>
    match mapAt st1.files path with
    | Except.error e => Except.error e
    | Except.ok ent => Except.ok (st1, ent.type == FileType.File)

/-- `MetadataStorageFromStaticFilesWebServer::isDirectory`. -/
def isDirectoryOp (st : Storage) (fetch : Fetcher) (ctx : ExecContext) (path : String) :
    Except Err (Storage × Bool) :=
  match assertExistsOp st fetch ctx path with
  | Except.error e => Except.error e
  | Except.ok st1 =>
    match mapAt st1.files path with
    | Except.error e => Except.error e
    | Except.ok ent => Except.ok (st1, ent.type == FileType.Directory)

/-- A stored-object descriptor as built by `StoredObject::create`: relative
remote key, size, and the remote flag. -/
structure StoredObject where
  key : String
  size : Nat
  isRemote : Bool
deriving DecidableEq

/-- `MetadataStorageFromStaticFilesWebServer::getStorageObjects`.  The
ClickHouse helper `escapeForFileName` lives outside the repository sources and
is modelled from the spec as an abstract deterministic filename-safe encoding,
passed in as `escape`. -/
def getStorageObjectsOp (st : Storage) (fetch : Fetcher) (ctx : ExecContext)
    (escape : String → String) (path : String) : Except Err (Storage × List StoredObject) :=
  match assertExistsOp st fetch ctx path with
  | Except.error e => Except.error e
  | Except.ok st1 =>
    let fs_path := pathAppend st1.url path
    let remote0 := pathAppend (parentPath fs_path) (escape (stem fs_path) ++ extension fs_path)
    let remote : String := ⟨remote0.data.drop st1.url.data.length⟩
    match mapAt st1.files path with
    | Except.error e => Except.error e
    | Except.ok ent => Except.ok (st1, [⟨remote, ent.size, true⟩])

/-- `MetadataStorageFromStaticFilesWebServer::listDirectory`: a flat scan of
the Index keeping every key that has `path` as a string prefix. -/
def listDirectoryOp (st : Storage) (fetch : Fetcher) (ctx : ExecContext) (path : String) :
    Except Err (Storage × List String) :=
  Except.ok (st, (st.files.filter (fun e => startsWith e.1 path)).map (fun e => e.1))

/-- Modelled from the spec: the ClickHouse helper `parentPath` from
`Common/filesystemHelpers.h` used by `iterateDirectory` is outside the
repository sources; the spec describes the membership test as trailing-slash
normalized dirname comparison, `dirname(x)/ == p/`. -/
def dirNorm (s : String) : String := pathAppend (parentPath s) ""

/-- `MetadataStorageFromStaticFilesWebServer::iterateDirectory`: best-effort
lazy init (empty result when it reports failure), then the existence
assertion, then a snapshot of the Index keys whose normalized parent equals
the normalized path. -/
def iterateDirectoryOp (st : Storage) (fetch : Fetcher) (ctx : ExecContext) (path : String) :
    Except Err (Storage × List String) :=
  match initializeIfNeeded st fetch ctx path none with
  | Except.error e => Except.error e
  | Except.ok (st1, ok) =>
    if !ok then Except.ok (st1, [])
    else
      match assertExistsOp st1 fetch ctx path with
      | Except.error e => Except.error e
      | Except.ok st2 =>
        Except.ok (st2,
          (st2.files.filter (fun e => dirNorm e.1 == pathAppend path "")).map (fun e => e.1))

/-- Modelled from the spec: `WebObjectStorage::throwNotAllowed` (outside the
repository sources) raises the fixed "not allowed" error used by every
rejected mutation. -/
def notAllowedErr : Err := ⟨ErrCode.NOT_ALLOWED, "Only read-only operations are supported"⟩

/-- `MetadataStorageFromStaticFilesWebServerTransaction::writeStringToFile`. -/
def writeStringToFile (st : Storage) (path data : String) : Except Err Storage :=
  Except.error notAllowedErr

/-- `MetadataStorageFromStaticFilesWebServerTransaction::setLastModified`
(the timestamp argument is abstracted to a number). -/
def setLastModified (st : Storage) (path : String) (ts : Nat) : Except Err Storage :=
  Except.error notAllowedErr

/-- `MetadataStorageFromStaticFilesWebServerTransaction::unlinkFile`. -/
def unlinkFile (st : Storage) (path : String) : Except Err Storage :=
  Except.error notAllowedErr

/-- `MetadataStorageFromStaticFilesWebServerTransaction::removeRecursive`. -/
def removeRecursive (st : Storage) (path : String) : Except Err Storage :=
  Except.error notAllowedErr

/-- `MetadataStorageFromStaticFilesWebServerTransaction::removeDirectory`. -/
def removeDirectory (st : Storage) (path : String) : Except Err Storage :=
  Except.error notAllowedErr

/-- `MetadataStorageFromStaticFilesWebServerTransaction::moveFile`. -/
def moveFile (st : Storage) (pathFrom pathTo : String) : Except Err Storage :=
  Except.error notAllowedErr

/-- `MetadataStorageFromStaticFilesWebServerTransaction::moveDirectory`. -/
def moveDirectory (st : Storage) (pathFrom pathTo : String) : Except Err Storage :=
  Except.error notAllowedErr

/-- `MetadataStorageFromStaticFilesWebServerTransaction::replaceFile`. -/
def replaceFile (st : Storage) (pathFrom pathTo : String) : Except Err Storage :=
  Except.error notAllowedErr

/-- `MetadataStorageFromStaticFilesWebServerTransaction::setReadOnly`. -/
def setReadOnly (st : Storage) (path : String) : Except Err Storage :=
  Except.error notAllowedErr

/-- `MetadataStorageFromStaticFilesWebServerTransaction::createHardLink`. -/
def createHardLink (st : Storage) (pathFrom pathTo : String) : Except Err Storage :=
  Except.error notAllowedErr

/-- `MetadataStorageFromStaticFilesWebServerTransaction::addBlobToMetadata`. -/
def addBlobToMetadata (st : Storage) (path blobName : String) (sz : Nat) : Except Err Storage :=
  Except.error notAllowedErr

/-- `MetadataStorageFromStaticFilesWebServerTransaction::unlinkMetadata`. -/
def unlinkMetadata (st : Storage) (path : String) : Except Err Storage :=
  Except.error notAllowedErr

/-- `MetadataStorageFromStaticFilesWebServerTransaction::createDirectory`:
a no-op. -/
def createDirectory (st : Storage) (path : String) : Except Err Storage :=
  Except.ok st

/-- `MetadataStorageFromStaticFilesWebServerTransaction::createDirectoryRecursive`:
a no-op. -/
def createDirectoryRecursive (st : Storage) (path : String) : Except Err Storage :=
  Except.ok st

/-- `MetadataStorageFromStaticFilesWebServerTransaction::createEmptyMetadataFile`:
a no-op. -/
def createEmptyMetadataFile (st : Storage) (path : String) : Except Err Storage :=
  Except.ok st

/-- `MetadataStorageFromStaticFilesWebServerTransaction::createMetadataFile`:
a no-op. -/
def createMetadataFile (st : Storage) (path blobName : String) (sz : Nat) : Except Err Storage :=
  Except.ok st

/-- `MetadataStorageFromStaticFilesWebServerTransaction::commit`: a no-op. -/
def commitTxn (st : Storage) : Except Err Storage :=
  Except.ok st

/-- `MetadataStorageFromStaticFilesWebServerTransaction::chmod`: raises
`NOT_IMPLEMENTED`. -/
def chmodTxn (st : Storage) (path : String) (mode : Nat) : Except Err Storage :=
  Except.error ⟨ErrCode.NOT_IMPLEMENTED, "chmod is not implemented for MetadataStorageFromStaticFilesWebServer"⟩

/-! ### Facts about the path order and prefix tests -/

theorem charsLt_nil_right (l : List Char) : charsLt l [] = false := by
  cases l <;> rfl

theorem charsLt_irrefl (l : List Char) : charsLt l l = false := by
  induction l with
  | nil => rfl
  | cons a as ih => simp [charsLt, ih]

theorem charsLt_cons_true_iff {x y : Char} {xs ys : List Char} :
    charsLt (x :: xs) (y :: ys) = true ↔
      (x = y ∧ charsLt xs ys = true) ∨ (x ≠ y ∧ x.toNat < y.toNat) := by
  by_cases h : x = y <;> simp [charsLt, h]

theorem charsLt_cons_false_iff {x y : Char} {xs ys : List Char} :
    charsLt (x :: xs) (y :: ys) = false ↔
      (x = y ∧ charsLt xs ys = false) ∨ (x ≠ y ∧ ¬ x.toNat < y.toNat) := by
  by_cases h : x = y <;> simp [charsLt, h]

theorem char_eq_of_toNat_eq {a b : Char} (h : a.toNat = b.toNat) : a = b :=
  Char.ext (UInt32.ext h)

theorem charsLt_trans {a b c : List Char} (h1 : charsLt a b = true)
    (h2 : charsLt b c = true) : charsLt a c = true := by
  induction a generalizing b c with
  | nil =>
    cases b with
    | nil => simp [charsLt] at h1
    | cons x xs =>
      cases c with
      | nil => rw [charsLt_nil_right] at h2; cases h2
      | cons y ys => rfl
  | cons x xs ih =>
    cases b with
    | nil => rw [charsLt_nil_right] at h1; cases h1
    | cons y ys =>
      cases c with
      | nil => rw [charsLt_nil_right] at h2; cases h2
      | cons z zs =>
        rcases charsLt_cons_true_iff.mp h1 with ⟨rfl, t1⟩ | ⟨hne1, lt1⟩ <;>
          rcases charsLt_cons_true_iff.mp h2 with ⟨heq2, t2⟩ | ⟨hne2, lt2⟩
        · exact charsLt_cons_true_iff.mpr (Or.inl ⟨heq2, ih t1 t2⟩)
        · refine charsLt_cons_true_iff.mpr (Or.inr ⟨fun hxz => ?_, lt2⟩)
          exact hne2 hxz
        · subst heq2
          refine charsLt_cons_true_iff.mpr (Or.inr ⟨hne1, lt1⟩)
        · have hxz : x.toNat < z.toNat := Nat.lt_trans lt1 lt2
          refine charsLt_cons_true_iff.mpr (Or.inr ⟨fun he => ?_, hxz⟩)
          subst he
          omega
        
theorem charsLt_asymm {a b : List Char} (h : charsLt a b = true) : charsLt b a = false := by
  by_contra hc
  have hba : charsLt b a = true := by
    cases hv : charsLt b a
    · exact absurd hv hc
    · rfl
  have := charsLt_trans h hba
  rw [charsLt_irrefl] at this
  cases this

theorem ne_of_charsLt {a b : List Char} (h : charsLt a b = true) : a ≠ b := by
  intro he
  subst he
  rw [charsLt_irrefl] at h
  cases h

theorem isPrefixOf_append_self (p r : List Char) : p.isPrefixOf (p ++ r) = true := by
  induction p with
  | nil => simp
  | cons a as ih => simp [List.isPrefixOf, ih]

theorem isPrefixOf_trans {p q r : List Char} (h1 : p.isPrefixOf q = true)
    (h2 : q.isPrefixOf r = true) : p.isPrefixOf r = true := by
  induction p generalizing q r with
  | nil => simp
  | cons a as ih =>
    cases q with
    | nil => simp [List.isPrefixOf] at h1
    | cons b bs =>
      cases r with
      | nil => simp [List.isPrefixOf] at h2
      | cons c cs =>
        simp only [List.isPrefixOf, Bool.and_eq_true, beq_iff_eq] at h1 h2 ⊢
        obtain ⟨rfl, h1⟩ := h1
        obtain ⟨rfl, h2⟩ := h2
        exact ⟨rfl, ih h1 h2⟩

theorem charsLt_eq_false_of_isPrefixOf {p k : List Char} (h : p.isPrefixOf k = true) :
    charsLt k p = false := by
  induction p generalizing k with
  | nil => exact charsLt_nil_right k
  | cons a as ih =>
    cases k with
    | nil => simp [List.isPrefixOf] at h
    | cons b bs =>
      simp only [List.isPrefixOf, Bool.and_eq_true, beq_iff_eq] at h
      obtain ⟨rfl, h2⟩ := h
      simp [charsLt, ih h2]

theorem isPrefixOf_of_between {p s k : List Char} (hs : charsLt s p = false)
    (hk : charsLt k s = false) (hpk : p.isPrefixOf k = true) : p.isPrefixOf s = true := by
  induction p generalizing s k with
  | nil => simp
  | cons a as ih =>
    cases k with
    | nil => simp [List.isPrefixOf] at hpk
    | cons b bs =>
      simp only [List.isPrefixOf, Bool.and_eq_true, beq_iff_eq] at hpk
      obtain ⟨rfl, hpk2⟩ := hpk
      cases s with
      | nil => simp [charsLt] at hs
      | cons c cs =>
        rcases charsLt_cons_false_iff.mp hs with ⟨rfl, hs2⟩ | ⟨hne1, hn1⟩
        · rcases charsLt_cons_false_iff.mp hk with ⟨_, hk2⟩ | ⟨hne2, hn2⟩
          · simp only [List.isPrefixOf, Bool.and_eq_true, beq_iff_eq]
            exact ⟨trivial, ih hs2 hk2 hpk2⟩
          · exact absurd rfl hne2
        · rcases charsLt_cons_false_iff.mp hk with ⟨heq2, hk2⟩ | ⟨hne2, hn2⟩
          · exact absurd heq2.symm hne1
          · have : c.toNat = a.toNat := by omega
            exact absurd (char_eq_of_toNat_eq this) hne1

theorem strLt_trans {a b c : String} (h1 : strLt a b = true) (h2 : strLt b c = true) :
    strLt a c = true := charsLt_trans h1 h2

theorem strLt_asymm {a b : String} (h : strLt a b = true) : strLt b a = false :=
  charsLt_asymm h

theorem strLt_irrefl (a : String) : strLt a a = false := charsLt_irrefl a.data

theorem ne_of_strLt {a b : String} (h : strLt a b = true) : a ≠ b := by
  intro he
  rw [he, strLt_irrefl] at h
  cases h

/-! ### Facts about `List.lookup`, `insertEntry` and `mergeEntries` -/

theorem lookup_mem {l : Index} {p : String} {v : FileEntry}
    (h : List.lookup p l = some v) : (p, v) ∈ l := by
  induction l with
  | nil => simp [List.lookup] at h
  | cons e rest ih =>
    obtain ⟨k, w⟩ := e
    cases hpk : p == k with
    | true =>
      simp only [List.lookup, hpk] at h
      injection h with hv
      subst hv
      have : p = k := beq_iff_eq.mp hpk
      subst this
      exact List.mem_cons_self _ _
    | false =>
      simp only [List.lookup, hpk] at h
      exact List.mem_cons_of_mem _ (ih h)

theorem lookup_of_mem_sorted {l : Index} (hs : IndexSorted l) {p : String} {v : FileEntry}
    (h : (p, v) ∈ l) : List.lookup p l = some v := by
  induction l with
  | nil => cases h
  | cons e rest ih =>
    obtain ⟨k, w⟩ := e
    obtain ⟨hsh, hst⟩ := List.pairwise_cons.mp hs
    rcases List.mem_cons.mp h with he | hm
    · cases he
      simp [List.lookup]
    · have hlt : strLt k p = true := hsh _ hm
      have hne : (p == k) = false :=
        beq_eq_false_iff_ne.mpr (fun he => ne_of_strLt hlt he.symm)
      simp only [List.lookup, hne]
      exact ih hst hm

theorem mem_insertEntry {l : Index} {k : String} {v : FileEntry} {x : String × FileEntry}
    (h : x ∈ insertEntry l k v) : x ∈ l ∨ x = (k, v) := by
  induction l with
  | nil =>
    simp only [insertEntry, List.mem_singleton] at h
    exact Or.inr h
  | cons e rest ih =>
    obtain ⟨k', v'⟩ := e
    by_cases h1 : strLt k k' = true
    · simp only [insertEntry, h1, if_true] at h
      rcases List.mem_cons.mp h with he | hrest
      · exact Or.inr he
      · rcases List.mem_cons.mp hrest with he | hm
        · exact Or.inl (List.mem_cons.mpr (Or.inl he))
        · exact Or.inl (List.mem_cons_of_mem _ hm)
    · by_cases h2 : strLt k' k = true
      · simp only [insertEntry, h1, h2, if_false, if_true] at h
        rcases List.mem_cons.mp h with he | hm
        · exact Or.inl (List.mem_cons.mpr (Or.inl he))
        · rcases ih hm with hx | hx
          · exact Or.inl (List.mem_cons_of_mem _ hx)
          · exact Or.inr hx
      · simp only [insertEntry, h1, h2, if_false] at h
        exact Or.inl h

theorem insertEntry_sorted {l : Index} (hs : IndexSorted l) (k : String) (v : FileEntry) :
    IndexSorted (insertEntry l k v) := by
  induction l with
  | nil => simp [insertEntry]
  | cons e rest ih =>
    obtain ⟨k', v'⟩ := e
    obtain ⟨hsh, hst⟩ := List.pairwise_cons.mp hs
    by_cases h1 : strLt k k' = true
    · simp only [insertEntry, h1, if_true]
      refine List.pairwise_cons.mpr ⟨?_, List.pairwise_cons.mpr ⟨hsh, hst⟩⟩
      intro y hy
      rcases List.mem_cons.mp hy with he | hm
      · subst he
        exact h1
      · exact strLt_trans h1 (hsh _ hm)
    · by_cases h2 : strLt k' k = true
      · simp only [insertEntry, h1, h2, if_false, if_true]
        refine List.pairwise_cons.mpr ⟨?_, ih hst⟩
        intro y hy
        rcases mem_insertEntry hy with hm | he
        · exact hsh _ hm
        · subst he
          exact h2
      · simp only [insertEntry, h1, h2, if_false]
        exact List.pairwise_cons.mpr ⟨hsh, hst⟩

theorem lookup_insertEntry_of_some {l : Index} (hs : IndexSorted l) {p : String}
    {v : FileEntry} (hl : List.lookup p l = some v) (k : String) (x : FileEntry) :
    List.lookup p (insertEntry l k x) = some v := by
  induction l with
  | nil => simp [List.lookup] at hl
  | cons e rest ih =>
    obtain ⟨k', w⟩ := e
    obtain ⟨hsh, hst⟩ := List.pairwise_cons.mp hs
    by_cases h1 : strLt k k' = true
    · have hmem := lookup_mem hl
      have hkp : strLt k p = true := by
        rcases List.mem_cons.mp hmem with he | hm
        · cases he
          exact h1
        · exact strLt_trans h1 (hsh _ hm)
      have hpk : (p == k) = false :=
        beq_eq_false_iff_ne.mpr (fun he => ne_of_strLt hkp he.symm)
      simp only [insertEntry, h1, if_true, List.lookup, hpk]
      exact hl
    · by_cases h2 : strLt k' k = true
      · simp only [insertEntry, h1, h2, if_false, if_true]
        cases hpk : p == k' with
        | true =>
          simp only [List.lookup, hpk] at hl ⊢
          exact hl
        | false =>
          simp only [List.lookup, hpk] at hl ⊢
          exact ih hst hl
      · simp only [insertEntry, h1, h2, if_false]
        exact hl

theorem mergeEntries_sorted {es : Index} :
    ∀ {files : Index}, IndexSorted files → IndexSorted (mergeEntries files es) := by
  induction es with
  | nil => intro files hs; exact hs
  | cons e rest ih =>
    intro files hs
    exact ih (insertEntry_sorted hs e.1 e.2)

theorem lookup_mergeEntries_of_some {es : Index} :
    ∀ {files : Index}, IndexSorted files → ∀ {p : String} {v : FileEntry},
      List.lookup p files = some v → List.lookup p (mergeEntries files es) = some v := by
  induction es with
  | nil => intro files _ p v h; exact h
  | cons e rest ih =>
    intro files hs p v h
    exact ih (insertEntry_sorted hs e.1 e.2) (lookup_insertEntry_of_some hs h e.1 e.2)

/-! ### takeWhile / dropWhile helpers -/

theorem dropWhile_append_of_ne_nil {α : Type} {f : α → Bool} {l r : List α}
    (h : l.dropWhile f ≠ []) : (l ++ r).dropWhile f = l.dropWhile f ++ r := by
  induction l with
  | nil => exact absurd rfl h
  | cons a t ih =>
    cases hfa : f a with
    | true =>
      simp only [List.cons_append, List.dropWhile_cons, hfa, if_true] at h ⊢
      exact ih h
    | false => simp [List.dropWhile_cons, hfa]

theorem dropWhile_append_of_eq_nil {α : Type} {f : α → Bool} {l r : List α}
    (h : l.dropWhile f = []) : (l ++ r).dropWhile f = r.dropWhile f := by
  induction l with
  | nil => rfl
  | cons a t ih =>
    cases hfa : f a with
    | true =>
      simp only [List.cons_append, List.dropWhile_cons, hfa, if_true] at h ⊢
      exact ih h
    | false => simp only [List.dropWhile_cons, hfa] at h; cases h

theorem takeWhile_append_of_ne_nil {α : Type} {f : α → Bool} {l r : List α}
    (h : l.dropWhile f ≠ []) : (l ++ r).takeWhile f = l.takeWhile f := by
  induction l with
  | nil => exact absurd rfl h
  | cons a t ih =>
    cases hfa : f a with
    | true =>
      simp only [List.dropWhile_cons, hfa, if_true] at h
      simp only [List.cons_append, List.takeWhile_cons, hfa, if_true]
      rw [ih h]
    | false => simp [List.takeWhile_cons, hfa]

theorem takeWhile_append_of_eq_nil {α : Type} {f : α → Bool} {l r : List α}
    (h : l.dropWhile f = []) : (l ++ r).takeWhile f = l ++ r.takeWhile f := by
  induction l with
  | nil => rfl
  | cons a t ih =>
    cases hfa : f a with
    | true =>
      simp only [List.dropWhile_cons, hfa, if_true] at h
      simp only [List.cons_append, List.takeWhile_cons, hfa, if_true]
      rw [ih h]
    | false => simp only [List.dropWhile_cons, hfa] at h; cases h

theorem dropWhile_head_false {α : Type} {f : α → Bool} {l t : List α} {a : α}
    (h : l.dropWhile f = a :: t) : f a = false := by
  induction l with
  | nil => cases h
  | cons b bs ih =>
    cases hfb : f b with
    | true =>
      simp only [List.dropWhile_cons, hfb, if_true] at h
      exact ih h
    | false =>
      simp only [List.dropWhile_cons, hfb, if_false] at h
      cases h
      exact hfb

theorem mem_dropWhile_of_false {α : Type} {f : α → Bool} {l : List α} {x : α}
    (hx : x ∈ l) (hfx : f x = false) : x ∈ l.dropWhile f := by
  induction l with
  | nil => cases hx
  | cons b bs ih =>
    cases hfb : f b with
    | false =>
      simp only [List.dropWhile_cons, hfb, if_false]
      exact hx
    | true =>
      simp only [List.dropWhile_cons, hfb, if_true]
      rcases List.mem_cons.mp hx with he | hm
      · subst he
        rw [hfb] at hfx
        cases hfx
      · exact ih hm

theorem dropWhile_eq_nil_all {α : Type} {f : α → Bool} {l : List α}
    (h : l.dropWhile f = []) : ∀ x ∈ l, f x = true := by
  induction l with
  | nil => intro x hx; cases hx
  | cons b bs ih =>
    cases hfb : f b with
    | false => simp only [List.dropWhile_cons, hfb, if_false] at h; cases h
    | true =>
      simp only [List.dropWhile_cons, hfb, if_true] at h
      intro x hx
      rcases List.mem_cons.mp hx with he | hm
      · subst he; exact hfb
      · exact ih h x hm

theorem dropWhile_getLast?_eq {α : Type} {f : α → Bool} {l : List α}
    (h : l.dropWhile f ≠ []) : (l.dropWhile f).getLast? = l.getLast? := by
  induction l with
  | nil => exact absurd rfl h
  | cons b bs ih =>
    cases hfb : f b with
    | false => simp [List.dropWhile_cons, hfb]
    | true =>
      simp only [List.dropWhile_cons, hfb, if_true] at h ⊢
      have hbs : bs ≠ [] := by
        intro hb
        subst hb
        exact h rfl
      rw [ih h]
      cases bs with
      | nil => exact absurd rfl hbs
      | cons c cs => rw [List.getLast?_cons_cons]

theorem getLast?_mem {α : Type} {l : List α} {a : α} (h : l.getLast? = some a) : a ∈ l := by
  obtain ⟨ys, rfl⟩ := List.getLast?_eq_some_iff.mp h
  simp

/-! ### Facts about `existsLookup` -/

theorem containsKey_of_lookup {files : Index} {p : String} {v : FileEntry}
    (h : List.lookup p files = some v) : containsKey files p = true := by
  simp [containsKey, h]

theorem existsLookup_of_contains {files : Index} {p : String}
    (h : containsKey files p = true) : existsLookup files p = true := by
  have hne : files.isEmpty = false := by
    cases files with
    | nil => simp [containsKey, List.lookup] at h
    | cons a t => rfl
  unfold existsLookup
  simp [hne, h]

theorem existsLookup_eq_spec (files : Index) (p : String) :
    existsLookup files p = existsLookupSpec files p := by
  unfold existsLookup existsLookupSpec
  cases he : files.isEmpty with
  | true => simp [he]
  | false =>
    cases hc : containsKey files p with
    | true => simp [he, hc]
    | false =>
      simp only [he, hc, Bool.false_eq_true, if_false]
      cases hhd : (files.dropWhile (fun e => strLt e.1 p)).head? with
      | some e => simp [hhd]
      | none =>
        simp only [hhd]
        cases hbl : (files.takeWhile (fun e => strLt e.1 p)).getLast? with
        | none => simp [hbl]
        | some e' =>
          simp only [hbl]
          cases hsw : startsWith e'.1 p with
          | false => simp [hsw]
          | true =>
            exfalso
            have hm : e' ∈ files.takeWhile (fun e => strLt e.1 p) := getLast?_mem hbl
            have hlt : strLt e'.1 p = true := by
              have hb := List.mem_takeWhile_imp hm
              exact hb
            have hf : charsLt e'.1.data p.data = false := charsLt_eq_false_of_isPrefixOf hsw
            rw [strLt, hf] at hlt
            cases hlt

theorem existsLookup_of_descendant {files : Index} (hs : IndexSorted files)
    {k : String} {v : FileEntry} (hm : (k, v) ∈ files)
    {p : String} (hd : startsWith k (p ++ "/") = true) :
    existsLookup files p = true := by
  have hne : files.isEmpty = false := by
    cases files with
    | nil => cases hm
    | cons a t => rfl
  cases hc : containsKey files p with
  | true => exact existsLookup_of_contains hc
  | false =>
    have hpk : p.data.isPrefixOf k.data = true := by
      have h1 : p.data.isPrefixOf (p ++ "/").data = true := by
        rw [String.data_append]
        exact isPrefixOf_append_self p.data "/".data
      exact isPrefixOf_trans h1 hd
    have hklt : charsLt k.data p.data = false := charsLt_eq_false_of_isPrefixOf hpk
    have hmem2 : (k, v) ∈ files.dropWhile (fun e => strLt e.1 p) :=
      mem_dropWhile_of_false hm hklt
    obtain ⟨a, t, hdw⟩ : ∃ a t, files.dropWhile (fun e => strLt e.1 p) = a :: t := by
      cases hdw : files.dropWhile (fun e => strLt e.1 p) with
      | nil => rw [hdw] at hmem2; cases hmem2
      | cons a t => exact ⟨a, t, rfl⟩
    have hfa : strLt a.1 p = false := by
      have hb := dropWhile_head_false hdw
      exact hb
    have hsub : IndexSorted (a :: t) := by
      have hps := hs.sublist (@List.dropWhile_sublist _ files (fun e => strLt e.1 p))
      rw [hdw] at hps
      exact hps
    have hak : charsLt k.data a.1.data = false := by
      rw [hdw] at hmem2
      rcases List.mem_cons.mp hmem2 with heq | hm2
      · rw [show a = (k, v) from heq.symm]
        exact charsLt_irrefl k.data
      · exact charsLt_asymm ((List.pairwise_cons.mp hsub).1 _ hm2)
    have hpa : p.data.isPrefixOf a.1.data = true := isPrefixOf_of_between hfa hak hpk
    unfold existsLookup
    rw [hdw]
    simp [hne, hc, startsWith, hpa]

/-! ### Invariants of the lazy initialization -/

theorem init_ok_inv {st st1 : Storage} {fetch : Fetcher} {ctx : ExecContext} {q : String}
    {topt : Option Bool} {b : Bool}
    (h : initializeIfNeeded st fetch ctx q topt = Except.ok (st1, b)) :
    st1.url = st.url ∧ (IndexSorted st.files → IndexSorted st1.files) ∧
      (IndexSorted st.files →
        ∀ p v, List.lookup p st.files = some v → List.lookup p st1.files = some v) := by
  unfold initializeIfNeeded at h
  cases hc : containsKey st.files q with
  | true =>
    simp only [hc, if_true] at h
    obtain ⟨h1, h2⟩ := Prod.mk.injEq .. ▸ Except.ok.inj h
    subst h1
    exact ⟨rfl, fun hs => hs, fun _ p v hl => hl⟩
  | false =>
    simp only [hc, Bool.false_eq_true, if_false] at h
    cases hf : fetch (pathAppend st.url q) with
    | ok entries =>
      rw [hf] at h
      obtain ⟨h1, h2⟩ := Prod.mk.injEq .. ▸ Except.ok.inj h
      subst h1
      exact ⟨rfl, fun hs => mergeEntries_sorted hs,
        fun hs p v hl => lookup_mergeEntries_of_some hs hl⟩
    | error msg =>
      rw [hf] at h
      cases hcan : topt.getD (liveQuery ctx) with
      | true => simp [hcan] at h
      | false =>
        simp only [hcan, Bool.false_eq_true, if_false] at h
        obtain ⟨h1, h2⟩ := Prod.mk.injEq .. ▸ Except.ok.inj h
        subst h1
        exact ⟨rfl, fun hs => hs, fun _ p v hl => hl⟩

theorem init_someFalse_ok (st : Storage) (fetch : Fetcher) (ctx : ExecContext) (q : String) :
    ∃ st1 b, initializeIfNeeded st fetch ctx q (some false) = Except.ok (st1, b) := by
  unfold initializeIfNeeded
  cases hc : containsKey st.files q with
  | true => exact ⟨st, true, by simp [hc]⟩
  | false =>
    cases hf : fetch (pathAppend st.url q) with
    | ok entries =>
      exact ⟨⟨st.url, mergeEntries st.files entries⟩, true, by simp [hc, hf]⟩
    | error msg => exact ⟨st, false, by simp [hc, hf, Option.getD]⟩

theorem existsOp_ok (st : Storage) (fetch : Fetcher) (ctx : ExecContext) (p : String) :
    ∃ st1, existsOp st fetch ctx p = Except.ok (st1, existsLookup st1.files p) ∧
      st1.url = st.url ∧ (IndexSorted st.files → IndexSorted st1.files) ∧
      (IndexSorted st.files →
        ∀ q v, List.lookup q st.files = some v → List.lookup q st1.files = some v) := by
  obtain ⟨st1, b, h⟩ := init_someFalse_ok st fetch ctx (if hasExtension p then parentPath p else p)
  obtain ⟨hurl, hsort, hlook⟩ := init_ok_inv h
  refine ⟨st1, ?_, hurl, hsort, hlook⟩
  simp only [existsOp]
  rw [h]

theorem assertExists_ok_of_lookup {st : Storage} (fetch : Fetcher) (ctx : ExecContext)
    {p : String} {v : FileEntry}
    (hs : IndexSorted st.files) (hv : List.lookup p st.files = some v) :
    ∃ st1, assertExistsOp st fetch ctx p = Except.ok st1 ∧ st1.url = st.url ∧
      IndexSorted st1.files ∧ List.lookup p st1.files = some v := by
  have hc : containsKey st.files p = true := containsKey_of_lookup hv
  have hinit : initializeIfNeeded st fetch ctx p none = Except.ok (st, true) := by
    unfold initializeIfNeeded
    simp [hc]
  obtain ⟨st1, hex, hurl, hsort, hlook⟩ := existsOp_ok st fetch ctx p
  have hv1 : List.lookup p st1.files = some v := hlook hs p v hv
  have hexv : existsLookup st1.files p = true :=
    existsLookup_of_contains (containsKey_of_lookup hv1)
  refine ⟨st1, ?_, hurl, hsort hs, hv1⟩
  simp only [assertExistsOp]
  rw [hinit]
  dsimp only
  rw [hex]
  simp [hexv]

/-! ### Path algebra for the remote object key -/

theorem str_ext {a b : String} (h : a.data = b.data) : a = b := by
  cases a
  cases b
  cases h
  rfl

theorem pathAppend_eq {url p : String} (hu : url ≠ "") (hut : url.data.getLast? ≠ some '/')
    (hp : p.data.head? ≠ some '/') : pathAppend url p = ⟨url.data ++ '/' :: p.data⟩ := by
  unfold pathAppend
  rw [if_neg hp, if_neg hu, if_neg hut]
  apply str_ext
  rw [String.data_append, String.data_append]
  rw [show ("/" : String).data = ['/'] from rfl, List.append_assoc]
  rfl

theorem pathAppend_slash_end {a b : String} (ha : a.data.getLast? = some '/')
    (hb : b.data.head? ≠ some '/') : pathAppend a b = a ++ b := by
  have hne : a ≠ "" := by
    intro h
    subst h
    simp at ha
  unfold pathAppend
  rw [if_neg hb, if_neg hne, if_pos ha]

theorem fileName_slash_cons (l r : List Char) : fileName ⟨l ++ '/' :: r⟩ = fileName ⟨r⟩ := by
  unfold fileName
  congr 1
  have hrev : (l ++ '/' :: r).reverse = r.reverse ++ '/' :: l.reverse := by
    rw [List.reverse_append, List.reverse_cons, List.append_assoc]
    rfl
  rw [show (⟨l ++ '/' :: r⟩ : String).data = l ++ '/' :: r from rfl,
    show (⟨r⟩ : String).data = r from rfl, hrev]
  by_cases hd : r.reverse.dropWhile (fun c => c != '/') = []
  · rw [takeWhile_append_of_eq_nil hd]
    have hall : r.reverse.takeWhile (fun c => c != '/') = r.reverse := by
      have h0 := List.takeWhile_append_dropWhile (fun c : Char => c != '/') r.reverse
      rw [hd, List.append_nil] at h0
      exact h0
    rw [hall]
    simp [List.takeWhile_cons]
  · rw [takeWhile_append_of_ne_nil hd]

theorem extension_slash_cons (l r : List Char) :
    extension ⟨l ++ '/' :: r⟩ = extension ⟨r⟩ := by
  unfold extension
  rw [fileName_slash_cons]

theorem stem_slash_cons (l r : List Char) : stem ⟨l ++ '/' :: r⟩ = stem ⟨r⟩ := by
  unfold stem
  rw [fileName_slash_cons]

theorem cons_append_isEmpty {α : Type} (l r : List α) (c : α) :
    ((l ++ c :: r)).isEmpty = false := by
  cases l <;> rfl

theorem parentChars_no_slash {pd : List Char}
    (hA : pd.reverse.dropWhile (fun c => c != '/') = []) : parentChars pd = [] := by
  unfold parentChars
  rw [hA]
  rfl

theorem parentChars_cases_nil {ud pd : List Char} (hu : ud ≠ [])
    (hut : ud.getLast? ≠ some '/')
    (hA : pd.reverse.dropWhile (fun c => c != '/') = []) :
    parentChars (ud ++ '/' :: pd) = ud := by
  simp only [parentChars]
  have hrev : (ud ++ '/' :: pd).reverse = pd.reverse ++ '/' :: ud.reverse := by
    rw [List.reverse_append, List.reverse_cons, List.append_assoc]
    rfl
  rw [hrev, dropWhile_append_of_eq_nil hA, List.dropWhile_cons]
  simp only [bne_self_eq_false, Bool.false_eq_true, if_false]
  rw [List.dropWhile_cons]
  simp only [beq_self_eq_true, if_true]
  have hne : ud.reverse ≠ [] := by
    intro h
    exact hu (by simpa using congrArg List.reverse h)
  obtain ⟨c, cs, hc⟩ : ∃ c cs, ud.reverse = c :: cs := by
    cases hcc : ud.reverse with
    | nil => exact absurd hcc hne
    | cons c cs => exact ⟨c, cs, rfl⟩
  have hcval : c ≠ '/' := by
    intro he
    apply hut
    rw [← List.head?_reverse, hc, he]
    rfl
  rw [hc, List.dropWhile_cons]
  simp only [show (c == '/') = false from beq_eq_false_iff_ne.mpr hcval,
    Bool.false_eq_true, if_false]
  simp only [List.isEmpty_cons, Bool.false_eq_true, if_false]
  rw [← hc, List.reverse_reverse]

theorem stripped_ne_nil {pd : List Char}
    (hB : pd.reverse.dropWhile (fun c => c != '/') ≠ []) (hp : pd.head? ≠ some '/') :
    (pd.reverse.dropWhile (fun c => c != '/')).dropWhile (fun c => c == '/') ≠ [] := by
  intro h2
  have hall := dropWhile_eq_nil_all h2
  have hgl : (pd.reverse.dropWhile (fun c => c != '/')).getLast? = pd.head? := by
    rw [dropWhile_getLast?_eq hB, List.getLast?_reverse]
  obtain ⟨c, hc⟩ : ∃ c, (pd.reverse.dropWhile (fun c => c != '/')).getLast? = some c := by
    cases hgg : (pd.reverse.dropWhile (fun c => c != '/')).getLast? with
    | none => exact absurd (List.getLast?_eq_none_iff.mp hgg) hB
    | some c => exact ⟨c, rfl⟩
  have hcm := getLast?_mem hc
  have hcq : c = '/' := by simpa using hall c hcm
  rw [hc] at hgl
  exact hp (by rw [← hgl, hcq])

theorem parentChars_cases_slash {ud pd : List Char}
    (hB : pd.reverse.dropWhile (fun c => c != '/') ≠ []) (hp : pd.head? ≠ some '/') :
    parentChars (ud ++ '/' :: pd) = ud ++ '/' :: parentChars pd := by
  have hr2 := stripped_ne_nil hB hp
  simp only [parentChars]
  have hrev : (ud ++ '/' :: pd).reverse = pd.reverse ++ '/' :: ud.reverse := by
    rw [List.reverse_append, List.reverse_cons, List.append_assoc]
    rfl
  rw [hrev, dropWhile_append_of_ne_nil hB, dropWhile_append_of_ne_nil hr2]
  obtain ⟨c, cs, hc⟩ : ∃ c cs,
      (pd.reverse.dropWhile (fun c => c != '/')).dropWhile (fun c => c == '/') = c :: cs := by
    cases hcc : (pd.reverse.dropWhile (fun c => c != '/')).dropWhile (fun c => c == '/') with
    | nil => exact absurd hcc hr2
    | cons c cs => exact ⟨c, cs, rfl⟩
  rw [hc, cons_append_isEmpty]
  simp only [List.isEmpty_cons, Bool.false_eq_true, if_false]
  rw [List.reverse_append, List.reverse_cons, List.reverse_reverse, List.append_assoc]
  rfl

theorem parentChars_head_ne_slash {pd : List Char}
    (hB : pd.reverse.dropWhile (fun c => c != '/') ≠ []) (hp : pd.head? ≠ some '/') :
    (parentChars pd).head? ≠ some '/' := by
  have hr2 := stripped_ne_nil hB hp
  simp only [parentChars]
  obtain ⟨c, cs, hc⟩ : ∃ c cs,
      (pd.reverse.dropWhile (fun c => c != '/')).dropWhile (fun c => c == '/') = c :: cs := by
    cases hcc : (pd.reverse.dropWhile (fun c => c != '/')).dropWhile (fun c => c == '/') with
    | nil => exact absurd hcc hr2
    | cons c cs => exact ⟨c, cs, rfl⟩
  rw [hc]
  simp only [List.isEmpty_cons, Bool.false_eq_true, if_false]
  rw [List.head?_reverse, ← hc, dropWhile_getLast?_eq hr2, dropWhile_getLast?_eq hB,
    List.getLast?_reverse]
  exact hp

theorem remote_key_eq {url p : String} (s : String) (hu : url ≠ "")
    (hut : url.data.getLast? ≠ some '/') (hp : p.data.head? ≠ some '/') :
    pathAppend (parentPath (pathAppend url p)) s
      = pathAppend (pathAppend url (parentPath p)) s := by
  have hud : url.data ≠ [] := by
    intro h
    exact hu (str_ext (by rw [h]))
  rw [pathAppend_eq hu hut hp]
  by_cases hB : p.data.reverse.dropWhile (fun c => c != '/') = []
  · have h1 : parentPath ⟨url.data ++ '/' :: p.data⟩ = url := by
      unfold parentPath
      rw [show (⟨url.data ++ '/' :: p.data⟩ : String).data = url.data ++ '/' :: p.data from rfl]
      rw [parentChars_cases_nil hud hut hB]
    have h2 : parentPath p = "" := by
      unfold parentPath
      rw [parentChars_no_slash hB]
    rw [h1, h2]
    have h3 : pathAppend url "" = ⟨url.data ++ ['/']⟩ := by
      rw [@pathAppend_eq url "" hu hut (by intro h; cases h)]
    rw [h3]
    by_cases hsA : s.data.head? = some '/'
    · unfold pathAppend
      rw [if_pos hsA, if_pos hsA]
    · have hl : (⟨url.data ++ ['/']⟩ : String).data.getLast? = some '/' := by
        show (url.data ++ ['/']).getLast? = some '/'
        rw [List.getLast?_concat]
      rw [pathAppend_eq hu hut hsA, pathAppend_slash_end hl hsA]
      apply str_ext
      rw [String.data_append]
      show url.data ++ '/' :: s.data = (url.data ++ ['/']) ++ s.data
      rw [List.append_assoc]
      rfl
  · have h1 : parentPath ⟨url.data ++ '/' :: p.data⟩ = ⟨url.data ++ '/' :: parentChars p.data⟩ := by
      unfold parentPath
      rw [show (⟨url.data ++ '/' :: p.data⟩ : String).data = url.data ++ '/' :: p.data from rfl]
      rw [parentChars_cases_slash hB hp]
    have h2 : pathAppend url (parentPath p) = ⟨url.data ++ '/' :: parentChars p.data⟩ := by
      have hh : (parentPath p).data.head? ≠ some '/' := parentChars_head_ne_slash hB hp
      rw [pathAppend_eq hu hut hh]
      rfl
    rw [h1, h2]

/-! ### The claims -/

/-- Claim C1: for every path `p`, `exists(p)` first attempts lazy initialization
of the probe path `q` (the parent when `p` has a filename extension, else `p`
itself) with `throw_on_error = false`, then returns false on an empty Index,
true when `p` is an Index key, and otherwise consults `lower_bound(Index, p)`,
returning true iff the found entry's key starts with `p` or its predecessor's
key does.  The specification's wording of the algorithm (`existsSpecOp`)
computes exactly the source's `exists` on every input. -/
theorem exists_follows_spec_algorithm (st : Storage) (fetch : Fetcher) (ctx : ExecContext)
    (p : String) : existsOp st fetch ctx p = existsSpecOp st fetch ctx p := by
  simp only [existsOp, existsSpecOp]
  cases h : initializeIfNeeded st fetch ctx
      (if hasExtension p = true then parentPath p else p) (some false) with
  | error e => rfl
  | ok pr =>
    obtain ⟨st1, b⟩ := pr
    dsimp only
    rw [existsLookup_eq_spec]

/-- Claim C2: `initializeIfNeeded(p, throw_on_error)` succeeds without touching
the fetcher when `p` is an Index key (the result is `ok (st, true)` for every
fetcher); when the fetcher is invoked and fails it throws `NETWORK_ERROR` with
the underlying message embedded iff the caller passed an explicit
`throw_on_error = true` or left it unset while attached to a live query
context; in every other failure case it returns failure without throwing
(logging is outside the model). -/
theorem initializeIfNeeded_policy (st : Storage) (fetch : Fetcher) (ctx : ExecContext)
    (p msg : String) (topt : Option Bool) :
    (containsKey st.files p = true →
      initializeIfNeeded st fetch ctx p topt = Except.ok (st, true)) ∧
    (containsKey st.files p = false → fetch (pathAppend st.url p) = Except.error msg →
      ((initializeIfNeeded st fetch ctx p topt =
          Except.error ⟨ErrCode.NETWORK_ERROR, "Cannot load disk metadata. Error: " ++ msg⟩)
        ↔ (topt = some true ∨ (topt = none ∧ liveQuery ctx = true))) ∧
      (¬ (topt = some true ∨ (topt = none ∧ liveQuery ctx = true)) →
        initializeIfNeeded st fetch ctx p topt = Except.ok (st, false))) := by
  constructor
  · intro hc
    unfold initializeIfNeeded
    simp [hc]
  · intro hc hf
    unfold initializeIfNeeded
    simp only [hc, Bool.false_eq_true, if_false]
    rw [hf]
    constructor
    · cases topt with
      | none =>
        cases hl : liveQuery ctx with
        | true => simp [hl, Option.getD]
        | false => simp [hl, Option.getD]
      | some bv => cases bv <;> simp [Option.getD]
    · intro hno
      cases topt with
      | none =>
        cases hl : liveQuery ctx with
        | true => exact absurd (Or.inr ⟨rfl, hl⟩) hno
        | false => simp [hl, Option.getD]
      | some bv =>
        cases bv with
        | true => exact absurd (Or.inl rfl) hno
        | false => simp [Option.getD]

/-- Witness for claim C2: on an empty Index with a failing fetcher, an unset
`throw_on_error` under a live query context yields the `NETWORK_ERROR` with
the fetcher's message embedded. -/
theorem initializeIfNeeded_policy_witness :
    initializeIfNeeded ⟨"u", []⟩ (fun _ => Except.error "boom") ⟨true, true⟩ "x" none
      = Except.error ⟨ErrCode.NETWORK_ERROR, "Cannot load disk metadata. Error: boom"⟩ :=
  (((initializeIfNeeded_policy ⟨"u", []⟩ (fun _ => Except.error "boom") ⟨true, true⟩
      "x" "boom" none).2 rfl rfl).1).mpr (Or.inr ⟨rfl, rfl⟩)

/-- Claim C3: every write-side transaction operation is either a silent no-op
returning the storage unchanged (`createDirectory`, `createDirectoryRecursive`,
`createEmptyMetadataFile`, `createMetadataFile`, `commit`) or raises a fixed
error (the "not allowed" error for the twelve mutation operations,
`NOT_IMPLEMENTED` for `chmod`); no operation alters the Index, so any state a
no-op returns is the original one and every view operation is unchanged. -/
theorem transaction_surface_policy (st : Storage) (p q bn : String) (n m ts : Nat) :
    createDirectory st p = Except.ok st ∧
    createDirectoryRecursive st p = Except.ok st ∧
    createEmptyMetadataFile st p = Except.ok st ∧
    createMetadataFile st p bn n = Except.ok st ∧
    commitTxn st = Except.ok st ∧
    writeStringToFile st p q = Except.error notAllowedErr ∧
    setLastModified st p ts = Except.error notAllowedErr ∧
    unlinkFile st p = Except.error notAllowedErr ∧
    removeRecursive st p = Except.error notAllowedErr ∧
    removeDirectory st p = Except.error notAllowedErr ∧
    moveFile st p q = Except.error notAllowedErr ∧
    moveDirectory st p q = Except.error notAllowedErr ∧
    replaceFile st p q = Except.error notAllowedErr ∧
    setReadOnly st p = Except.error notAllowedErr ∧
    createHardLink st p q = Except.error notAllowedErr ∧
    addBlobToMetadata st p bn n = Except.error notAllowedErr ∧
    unlinkMetadata st p = Except.error notAllowedErr ∧
    chmodTxn st p m = Except.error ⟨ErrCode.NOT_IMPLEMENTED,
      "chmod is not implemented for MetadataStorageFromStaticFilesWebServer"⟩ ∧
    (∀ st', (createDirectory st p = Except.ok st' ∨
        createDirectoryRecursive st p = Except.ok st' ∨
        createEmptyMetadataFile st p = Except.ok st' ∨
        createMetadataFile st p bn n = Except.ok st' ∨
        commitTxn st = Except.ok st') →
      st' = st ∧ st'.files = st.files) := by
  refine ⟨rfl, rfl, rfl, rfl, rfl, rfl, rfl, rfl, rfl, rfl, rfl, rfl, rfl, rfl, rfl, rfl, rfl,
    rfl, ?_⟩
  intro st' h
  have hst : st' = st := by
    rcases h with h | h | h | h | h <;> exact (Except.ok.inj h).symm
  exact ⟨hst, by rw [hst]⟩

/-- Witness for claim C3: a concrete no-op and a concrete rejection, with the
Index unchanged. -/
theorem transaction_surface_policy_witness :
    createDirectory ⟨"u", []⟩ "x" = Except.ok ⟨"u", []⟩ ∧
    writeStringToFile ⟨"u", []⟩ "x" "y" = Except.error notAllowedErr ∧
    (⟨"u", []⟩ : Storage).files = [] := by
  have h := transaction_surface_policy ⟨"u", []⟩ "x" "y" "b" 0 0 0
  refine ⟨h.1, h.2.2.2.2.2.1, ?_⟩
  have h19 := h.2.2.2.2.2.2.2.2.2.2.2.2.2.2.2.2.2.2 ⟨"u", []⟩ (Or.inl h.1)
  rw [h19.2]

/-- Claim C4: whenever some Index key starts with `p ++ "/"` (a descendant of
`p` is present), `exists(p)` returns true, via the `lower_bound` entry or its
predecessor. -/
theorem exists_of_descendant (st : Storage) (fetch : Fetcher) (ctx : ExecContext) (p : String)
    (hs : IndexSorted st.files)
    (hd : ∃ e ∈ st.files, startsWith e.1 (p ++ "/") = true) :
    ∃ st1, existsOp st fetch ctx p = Except.ok (st1, true) := by
  obtain ⟨e, hm, hsw⟩ := hd
  obtain ⟨st1, hex, hurl, hsort, hlook⟩ := existsOp_ok st fetch ctx p
  have hl0 : List.lookup e.1 st.files = some e.2 := lookup_of_mem_sorted hs hm
  have hl1 : List.lookup e.1 st1.files = some e.2 := hlook hs e.1 e.2 hl0
  have hm1 : (e.1, e.2) ∈ st1.files := lookup_mem hl1
  have hev : existsLookup st1.files p = true :=
    existsLookup_of_descendant (hsort hs) hm1 hsw
  exact ⟨st1, by rw [hex, hev]⟩

/-- Witness for claim C4: the Index holds only `t/a.bin`, and `exists "t"`
returns true. -/
theorem exists_of_descendant_witness :
    ∃ st1, existsOp ⟨"u", [("t/a.bin", ⟨FileType.File, 100⟩)]⟩ (fun _ => Except.error "e")
        ⟨false, false⟩ "t" = Except.ok (st1, true) :=
  exists_of_descendant ⟨"u", [("t/a.bin", ⟨FileType.File, 100⟩)]⟩ (fun _ => Except.error "e")
    ⟨false, false⟩ "t" (by decide)
    ⟨("t/a.bin", ⟨FileType.File, 100⟩), by decide, by decide⟩

/-- Counterexample to claim C5 as stated: with the Index holding only the key
`t/a.bin`, `exists "t"` returns true (synthetic ancestor), yet neither
`isFile "t"` nor `isDirectory "t"` returns a boolean at all — both throw
`std::out_of_range` from the direct `files.at` lookup — so it is not the case
that exactly one of them returns true. -/
theorem classification_throws_on_synthetic_ancestor :
    existsOp ⟨"u", [("t/a.bin", ⟨FileType.File, 100⟩)]⟩ (fun _ => Except.error "e")
        ⟨false, false⟩ "t"
      = Except.ok (⟨"u", [("t/a.bin", ⟨FileType.File, 100⟩)]⟩, true) ∧
    isFileOp ⟨"u", [("t/a.bin", ⟨FileType.File, 100⟩)]⟩ (fun _ => Except.error "e")
        ⟨false, false⟩ "t"
      = Except.error ⟨ErrCode.STD_OUT_OF_RANGE, "map::at"⟩ ∧
    isDirectoryOp ⟨"u", [("t/a.bin", ⟨FileType.File, 100⟩)]⟩ (fun _ => Except.error "e")
        ⟨false, false⟩ "t"
      = Except.error ⟨ErrCode.STD_OUT_OF_RANGE, "map::at"⟩ :=
  ⟨rfl, rfl, rfl⟩

/-- Claim C5 (amended): for every path `p` that is an Index key, `isFile(p)`
and `isDirectory(p)` both return a boolean and exactly one of them returns
true (the entry's type is either `File` or `Directory`). -/
theorem isFile_isDirectory_exclusive (st : Storage) (fetch : Fetcher) (ctx : ExecContext)
    (p : String) (v : FileEntry) (hs : IndexSorted st.files)
    (hv : List.lookup p st.files = some v) :
    ∃ st1, isFileOp st fetch ctx p = Except.ok (st1, v.type == FileType.File) ∧
      isDirectoryOp st fetch ctx p = Except.ok (st1, v.type == FileType.Directory) ∧
      ((v.type == FileType.File) = !(v.type == FileType.Directory)) := by
  obtain ⟨st1, ha, hurl, hsort, hv1⟩ := assertExists_ok_of_lookup fetch ctx hs hv
  have hmap : mapAt st1.files p = Except.ok v := by
    unfold mapAt
    rw [hv1]
  refine ⟨st1, ?_, ?_, ?_⟩
  · simp only [isFileOp]
    rw [ha]
    dsimp only
    rw [hmap]
  · simp only [isDirectoryOp]
    rw [ha]
    dsimp only
    rw [hmap]
  · obtain ⟨t, sz⟩ := v
    cases t <;> rfl

/-- Witness for claim C5 (amended): for the Index key `t/a.bin` of type File,
`isFile` returns true and `isDirectory` returns false. -/
theorem isFile_isDirectory_exclusive_witness :
    ∃ st1, isFileOp ⟨"u", [("t/a.bin", ⟨FileType.File, 100⟩)]⟩ (fun _ => Except.error "e")
          ⟨false, false⟩ "t/a.bin" = Except.ok (st1, true) ∧
      isDirectoryOp ⟨"u", [("t/a.bin", ⟨FileType.File, 100⟩)]⟩ (fun _ => Except.error "e")
          ⟨false, false⟩ "t/a.bin" = Except.ok (st1, false) := by
  obtain ⟨st1, h1, h2, h3⟩ := isFile_isDirectory_exclusive
    ⟨"u", [("t/a.bin", ⟨FileType.File, 100⟩)]⟩ (fun _ => Except.error "e") ⟨false, false⟩
    "t/a.bin" ⟨FileType.File, 100⟩ (by decide) rfl
  exact ⟨st1, h1, h2⟩

/-- Claim C6: for a file path `p` that is an Index key (so the existence
assertion passes by direct lookup), `getStorageObjects(p)` returns exactly one
stored-object descriptor whose key is `base_url / dirname(p) /
(escape(stem(p)) ++ extension(p))` with the leading `base_url` prefix
stripped, whose size is the Index entry's size, and which is marked remote.
The hypotheses pin down the shapes the deployment guarantees: a non-empty
base url without a trailing separator and a storage-relative path. -/
theorem getStorageObjects_key (st : Storage) (fetch : Fetcher) (ctx : ExecContext)
    (escape : String → String) (p : String) (v : FileEntry)
    (hs : IndexSorted st.files) (hv : List.lookup p st.files = some v)
    (hp : p.data.head? ≠ some '/') (hu : st.url ≠ "")
    (hut : st.url.data.getLast? ≠ some '/') :
    ∃ st1, getStorageObjectsOp st fetch ctx escape p = Except.ok (st1,
      [⟨⟨(pathAppend (pathAppend st.url (parentPath p))
            (escape (stem p) ++ extension p)).data.drop st.url.data.length⟩,
        v.size, true⟩]) := by
  obtain ⟨st1, ha, hurl, hsort, hv1⟩ := assertExists_ok_of_lookup fetch ctx hs hv
  have hmap : mapAt st1.files p = Except.ok v := by
    unfold mapAt
    rw [hv1]
  refine ⟨st1, ?_⟩
  simp only [getStorageObjectsOp]
  rw [ha]
  dsimp only
  rw [hmap]
  dsimp only
  rw [hurl]
  have hfs : pathAppend st.url p = ⟨st.url.data ++ '/' :: p.data⟩ := pathAppend_eq hu hut hp
  have hstem : stem (pathAppend st.url p) = stem p := by
    rw [hfs]
    exact stem_slash_cons st.url.data p.data
  have hext : extension (pathAppend st.url p) = extension p := by
    rw [hfs]
    exact extension_slash_cons st.url.data p.data
  rw [hstem, hext, remote_key_eq (escape (stem p) ++ extension p) hu hut hp]

/-- Witness for claim C6: with `base_url = "https://h/r"`, the Index entry
`t/a.bin` of size 100 and the identity as a concrete escape, the single
descriptor's key is `/t/a.bin` and its size 100. -/
theorem getStorageObjects_key_witness :
    ∃ st1, getStorageObjectsOp
        ⟨"https://h/r", [("t", ⟨FileType.Directory, 0⟩), ("t/a.bin", ⟨FileType.File, 100⟩)]⟩
        (fun _ => Except.error "e") ⟨false, false⟩ (fun s => s) "t/a.bin"
      = Except.ok (st1, [⟨"/t/a.bin", 100, true⟩]) := by
  obtain ⟨st1, h⟩ := getStorageObjects_key
    ⟨"https://h/r", [("t", ⟨FileType.Directory, 0⟩), ("t/a.bin", ⟨FileType.File, 100⟩)]⟩
    (fun _ => Except.error "e") ⟨false, false⟩ (fun s => s) "t/a.bin" ⟨FileType.File, 100⟩
    (by decide) rfl (by decide) (by decide) (by decide)
  exact ⟨st1, h.trans (by rfl)⟩

/-- Claim C7: `iterateDirectory(p)` performs a best-effort lazy init; when the
init reports failure (the non-throwing path) it returns an empty snapshot
without error; when the init succeeds and the existence assertion passes, it
returns the snapshot of exactly those Index keys, in Index order, whose
normalized parent (`dirname(x)/`) equals the normalized path (`p/`). -/
theorem iterateDirectory_spec (st st1 st2 : Storage) (fetch : Fetcher) (ctx : ExecContext)
    (p : String) :
    (initializeIfNeeded st fetch ctx p none = Except.ok (st1, false) →
      iterateDirectoryOp st fetch ctx p = Except.ok (st1, [])) ∧
    (initializeIfNeeded st fetch ctx p none = Except.ok (st1, true) →
      assertExistsOp st1 fetch ctx p = Except.ok st2 →
      iterateDirectoryOp st fetch ctx p = Except.ok (st2,
        (st2.files.filter (fun e => dirNorm e.1 == pathAppend p "")).map (fun e => e.1)) ∧
      (∀ k, k ∈ (st2.files.filter (fun e => dirNorm e.1 == pathAppend p "")).map
            (fun e => e.1) ↔
        ∃ e ∈ st2.files, e.1 = k ∧ dirNorm k = pathAppend p "")) := by
  constructor
  · intro h
    simp only [iterateDirectoryOp]
    rw [h]
    rfl
  · intro h ha
    refine ⟨?_, ?_⟩
    · simp only [iterateDirectoryOp]
      rw [h]
      dsimp only
      rw [ha]
      rfl
    · intro k
      constructor
      · intro hk
        obtain ⟨e, he, rfl⟩ := List.mem_map.mp hk
        obtain ⟨hm, hf⟩ := List.mem_filter.mp he
        exact ⟨e, hm, rfl, beq_iff_eq.mp hf⟩
      · rintro ⟨e, hm, rfl, hd⟩
        exact List.mem_map.mpr ⟨e, List.mem_filter.mpr ⟨hm, beq_iff_eq.mpr hd⟩, rfl⟩

/-- Witness for claim C7: over the Index `{t, t/a.bin}` the iterator for `t`
yields exactly `t/a.bin`; the init and assertion hypotheses hold by direct
evaluation. -/
theorem iterateDirectory_spec_witness :
    iterateDirectoryOp
        ⟨"u", [("t", ⟨FileType.Directory, 0⟩), ("t/a.bin", ⟨FileType.File, 100⟩)]⟩
        (fun _ => Except.error "e") ⟨false, false⟩ "t"
      = Except.ok
        (⟨"u", [("t", ⟨FileType.Directory, 0⟩), ("t/a.bin", ⟨FileType.File, 100⟩)]⟩,
          ["t/a.bin"]) := by
  have h := (iterateDirectory_spec
    ⟨"u", [("t", ⟨FileType.Directory, 0⟩), ("t/a.bin", ⟨FileType.File, 100⟩)]⟩
    ⟨"u", [("t", ⟨FileType.Directory, 0⟩), ("t/a.bin", ⟨FileType.File, 100⟩)]⟩
    ⟨"u", [("t", ⟨FileType.Directory, 0⟩), ("t/a.bin", ⟨FileType.File, 100⟩)]⟩
    (fun _ => Except.error "e") ⟨false, false⟩ "t").2 rfl rfl
  exact h.1.trans (by rfl)

/-- Claim C8: `listDirectory(p)` returns exactly the Index keys whose string
representation has `p` as a prefix — a flat recursive prefix scan of the whole
subtree, not a single-level listing. -/
theorem listDirectory_flat_scan (st : Storage) (fetch : Fetcher) (ctx : ExecContext)
    (p k : String) :
    ∃ l, listDirectoryOp st fetch ctx p = Except.ok (st, l) ∧
      (k ∈ l ↔ ∃ e ∈ st.files, e.1 = k ∧ startsWith k p = true) := by
  refine ⟨_, rfl, ?_⟩
  constructor
  · intro hk
    obtain ⟨e, he, rfl⟩ := List.mem_map.mp hk
    obtain ⟨hm, hf⟩ := List.mem_filter.mp he
    exact ⟨e, hm, rfl, hf⟩
  · rintro ⟨e, hm, rfl, hsw⟩
    exact List.mem_map.mpr ⟨e, List.mem_filter.mpr ⟨hm, hsw⟩, rfl⟩

/-- Claim C9: the descendant check of `exists` is raw string-prefix matching:
with the Index containing only the key `table`, `exists "tab"` returns true
although `tab` is neither an Index key nor a path-component ancestor of any
entry (no key starts with `tab/`). -/
theorem exists_raw_prefix_artifact :
    existsOp ⟨"u", [("table", ⟨FileType.Directory, 0⟩)]⟩ (fun _ => Except.error "down")
        ⟨false, false⟩ "tab"
      = Except.ok (⟨"u", [("table", ⟨FileType.Directory, 0⟩)]⟩, true) ∧
    containsKey [("table", ⟨FileType.Directory, 0⟩)] "tab" = false ∧
    startsWith "table" ("tab" ++ "/") = false :=
  ⟨rfl, rfl, rfl⟩

/-- Claim C10: `listDirectory` never triggers a lazy fetch and never raises:
its result is `ok`, leaves the storage untouched, reads only the Index, and is
independent of the fetcher and of the ambient context. -/
theorem listDirectory_reads_index_only (st : Storage) (fetch fetch' : Fetcher)
    (ctx ctx' : ExecContext) (p : String) :
    listDirectoryOp st fetch ctx p
      = Except.ok (st, (st.files.filter (fun e => startsWith e.1 p)).map (fun e => e.1)) ∧
    listDirectoryOp st fetch ctx p = listDirectoryOp st fetch' ctx' p :=
  ⟨rfl, rfl⟩
